import Mathlib

/-!
Verification of the hybrid retrieval engine (rag-mcp).

Shallow embedding notes:
- Rust `f32`/`f64` score arithmetic is modelled over `ℚ` (exact rationals);
  the claims settled here concern the algebraic structure of the score
  pipeline (accumulation, ordering, normalization, thresholds), not IEEE
  rounding.  Embedding blobs are modelled at the bit level (a float is its
  32-bit pattern), where `to_le_bytes`/`from_le_bytes` are exact.
- Rust `HashMap` accumulation (src/search/hybrid.rs) is modelled by an
  association list keyed by `chunk_id`; `insert` replaces the stored value
  in place, `entry...and_modify...or_insert` adds to it or appends.  The
  unspecified hash-iteration order is modelled as insertion order; the
  subsequent stable sort makes every property proved here order-robust.
- Rust `sort_by` is a stable sort; it is modelled by a stable insertion
  sort over the same (total, on ℚ) comparator.
- Strings are modelled as `List Char` (Unicode scalar values); Rust byte
  positions are recovered through `Char.utf8Size`.
-/

namespace RagMcp

/-- `SearchResult` from src/search/bm25.rs (scores as ℚ, see header). -/
structure SearchResult where
  chunk_id : String
  doc_path : String
  doc_type : String
  agent_name : Option String
  section_ : Option String
  chunk_text : String
  score : ℚ
  rank : Nat
deriving Repr, DecidableEq

/-- The accumulator of `reciprocal_rank_fusion`: chunk_id ↦ (score, result). -/
abbrev ScoreMap := List (String × ℚ × SearchResult)

/-- `HashMap::insert`: replace the value stored under `key`, or append. -/
def mapInsert (m : ScoreMap) (key : String) (v : ℚ × SearchResult) : ScoreMap :=
  match m with
  | [] => [(key, v)]
  | (k, w) :: rest =>
      if k = key then (k, v) :: rest else (k, w) :: mapInsert rest key v

/-- `HashMap::entry(key).and_modify(|(s,_)| *s += rrf).or_insert((rrf, r))`. -/
def mapAccum (m : ScoreMap) (key : String) (rrf : ℚ) (r : SearchResult) : ScoreMap :=
  match m with
  | [] => [(key, (rrf, r))]
  | (k, (s, res)) :: rest =>
      if k = key then (k, (s + rrf, res)) :: rest
      else (k, (s, res)) :: mapAccum rest key rrf r

/-- Score found under a key (0 when absent, matching the additive reading). -/
def lookupScore (m : ScoreMap) (key : String) : ℚ :=
  match m with
  | [] => 0
  | (k, (s, _)) :: rest => if k = key then s else lookupScore rest key

/-- Key membership in the accumulator. -/
def mapHasKey (m : ScoreMap) (key : String) : Bool :=
  match m with
  | [] => false
  | (k, _) :: rest => k = key || mapHasKey rest key

/-- One RRF contribution: `weight / (K + rank)` with K = 60 and 1-indexed rank
(`rank` below is the 0-indexed `enumerate` counter of the Rust loop). -/
def rrfTerm (weight : ℚ) (rank : Nat) : ℚ :=
  weight / (60 + (rank + 1 : ℕ))

/-- The BM25 loop of `reciprocal_rank_fusion` (`for (rank, result) in
bm25_results.into_iter().enumerate() { scores.insert(...) }`), with the
`enumerate` counter threaded explicitly. -/
def bmLoop (weight : ℚ) : Nat → List SearchResult → ScoreMap → ScoreMap
  | _, [], m => m
  | i, r :: rs, m => bmLoop weight (i + 1) rs (mapInsert m r.chunk_id (rrfTerm weight i, r))

/-- The vector loop of `reciprocal_rank_fusion` (`entry ... and_modify ...
or_insert`), with the `enumerate` counter threaded explicitly. -/
def vecLoop (weight : ℚ) : Nat → List SearchResult → ScoreMap → ScoreMap
  | _, [], m => m
  | i, r :: rs, m => vecLoop weight (i + 1) rs (mapAccum m r.chunk_id (rrfTerm weight i) r)

/-- The fully populated RRF accumulator (both loops of src/search/hybrid.rs). -/
def rrfAccum (bm25_results vector_results : List SearchResult) (bm25_weight vector_weight : ℚ) :
    ScoreMap :=
  vecLoop vector_weight 0 vector_results (bmLoop bm25_weight 0 bm25_results [])

/-- Stable descending insertion by score (ties keep earlier elements first),
modelling Rust's stable `sort_by(|a, b| b.score.partial_cmp(&a.score) ...)`. -/
def insertDesc (x : SearchResult) : List SearchResult → List SearchResult
  | [] => [x]
  | y :: ys => if x.score < y.score then y :: insertDesc x ys else x :: y :: ys

/-- Stable sort by score, descending. -/
def sortDesc : List SearchResult → List SearchResult
  | [] => []
  | x :: xs => insertDesc x (sortDesc xs)

/-- `.enumerate().map(|(idx, r)| { r.rank = idx + 1; r })` with the counter
threaded explicitly (`assignRanks i` starts the 0-indexed counter at `i`). -/
def assignRanks : Nat → List SearchResult → List SearchResult
  | _, [] => []
  | i, r :: rs => { r with rank := i + 1 } :: assignRanks (i + 1) rs

/-- `reciprocal_rank_fusion` from src/search/hybrid.rs: populate the score
map, write accumulated scores back into the results, sort descending,
take the top `k`, assign 1-indexed ranks. -/
def reciprocal_rank_fusion (bm25_results vector_results : List SearchResult)
    (k : Nat) (bm25_weight vector_weight : ℚ) : List SearchResult :=
  let ranked := (rrfAccum bm25_results vector_results bm25_weight vector_weight).map
    (fun p => { p.2.2 with score := p.2.1 })
  assignRanks 0 ((sortDesc ranked).take k)

/-- `fused.first().map(|r| r.score).unwrap_or(0.0)`. -/
def rrfMax (fused : List SearchResult) : ℚ :=
  (fused.head?.map SearchResult.score).getD 0

/-- `if fused.is_empty() { 0.0 } else { fused.last().unwrap().score }`. -/
def rrfMin (fused : List SearchResult) : ℚ :=
  match fused.getLast? with
  | some r => r.score
  | none => 0

/-- `score_range = max_rrf_score - min_rrf_score` (src/search/hybrid.rs). -/
def scoreRange (fused : List SearchResult) : ℚ :=
  rrfMax fused - rrfMin fused

/-- Min-max normalization step of `search_hybrid` (lines 126-138). -/
def hybridNormalize (fused : List SearchResult) : List SearchResult :=
  if 0 < scoreRange fused then
    fused.map (fun r => { r with score := (r.score - rrfMin fused) / scoreRange fused })
  else fused

/-- Adaptive threshold of `search_hybrid` (lines 143-149): `min(min_score, 0.2)`
on tight distributions (`range < 0.1`), else `min_score`. -/
def adaptiveThreshold (fused : List SearchResult) (min_score : ℚ) : ℚ :=
  if scoreRange fused < 1 / 10 then min min_score (1 / 5) else min_score

/-- Post-fusion pipeline of `search_hybrid` (normalize, threshold, filter);
note the code does not touch `rank` after `reciprocal_rank_fusion`. -/
def hybridPost (fused : List SearchResult) (min_score : ℚ) : List SearchResult :=
  (hybridNormalize fused).filter (fun r => adaptiveThreshold fused min_score ≤ r.score)

/-- `search_hybrid` from src/search/hybrid.rs with the two search legs as
oracles (the database, FTS5 engine and embedder are external).  Faithful
argument routing: the BM25 leg receives the namespace filter but `None` for
the agent filter; the vector leg receives both; both legs are over-fetched
at `k * 4` with threshold `0.0`. -/
def search_hybrid
    (bm25fn : String → Option String → Option String → Nat → ℚ → List SearchResult)
    (vecfn : String → Nat → ℚ → Option String → Option String → List SearchResult)
    (query : String) (namespace_ agent_filter : Option String)
    (k : Nat) (min_score bm25_weight vector_weight : ℚ) : List SearchResult :=
  let fetch_k := k * 4
  let bm25_results := bm25fn query namespace_ none fetch_k 0
  let vector_results := vecfn query fetch_k 0 namespace_ agent_filter
  hybridPost (reciprocal_rank_fusion bm25_results vector_results k bm25_weight vector_weight)
    min_score

/-- 0-based index of the first result with the given `chunk_id` (so the
1-indexed rank of the claim is this index plus one). -/
def idxOf? (c : String) : List SearchResult → Option Nat
  | [] => none
  | r :: rs => if r.chunk_id = c then some 0 else (idxOf? c rs).map (· + 1)

/-- The RRF contribution of one source list to the chunk `c`:
`weight / (60 + rank)` at its 1-indexed rank, 0 when absent. -/
def listContrib (weight : ℚ) (l : List SearchResult) (c : String) : ℚ :=
  match idxOf? c l with
  | some j => rrfTerm weight j
  | none => 0

theorem idxOf?_eq_none_of_not_mem {c : String} {l : List SearchResult}
    (h : c ∉ l.map SearchResult.chunk_id) : idxOf? c l = none := by
  induction l with
  | nil => rfl
  | cons r rs ih =>
      simp only [List.map_cons, List.mem_cons, not_or] at h
      have hne : ¬ r.chunk_id = c := fun hc => h.1 hc.symm
      simp only [idxOf?, if_neg hne, ih h.2, Option.map_none']

theorem lookupScore_mapInsert (m : ScoreMap) (key : String) (v : ℚ × SearchResult)
    (c : String) :
    lookupScore (mapInsert m key v) c = if key = c then v.1 else lookupScore m c := by
  induction m with
  | nil =>
      by_cases h : key = c <;> simp [mapInsert, lookupScore, h]
  | cons p rest ih =>
      obtain ⟨k, w⟩ := p
      by_cases hk : k = key
      · subst hk
        by_cases hc : k = c <;> simp [mapInsert, lookupScore, hc]
      · by_cases hc : k = c
        · subst hc
          have : ¬ key = k := fun h => hk h.symm
          simp [mapInsert, lookupScore, hk, this]
        · simp [mapInsert, lookupScore, hk, hc, ih]

theorem lookupScore_mapAccum (m : ScoreMap) (key : String) (rrf : ℚ) (r : SearchResult)
    (c : String) :
    lookupScore (mapAccum m key rrf r) c =
      if key = c then lookupScore m c + rrf else lookupScore m c := by
  induction m with
  | nil =>
      by_cases h : key = c <;> simp [mapAccum, lookupScore, h]
  | cons p rest ih =>
      obtain ⟨k, s, res⟩ := p
      by_cases hk : k = key
      · subst hk
        by_cases hc : k = c <;> simp [mapAccum, lookupScore, hc]
      · by_cases hc : k = c
        · subst hc
          have : ¬ key = k := fun h => hk h.symm
          simp [mapAccum, lookupScore, hk, this]
        · simp [mapAccum, lookupScore, hk, hc, ih]

theorem bmLoop_lookup (w : ℚ) (c : String) :
    ∀ (b : List SearchResult) (i : Nat) (m : ScoreMap),
      (b.map SearchResult.chunk_id).Nodup →
      lookupScore (bmLoop w i b m) c =
        match idxOf? c b with
        | some j => rrfTerm w (i + j)
        | none => lookupScore m c := by
  intro b
  induction b with
  | nil => intro i m _; rfl
  | cons r rs ih =>
      intro i m hnd
      simp only [List.map_cons, List.nodup_cons] at hnd
      by_cases hc : r.chunk_id = c
      · subst hc
        have hnone : idxOf? r.chunk_id rs = none :=
          idxOf?_eq_none_of_not_mem hnd.1
        simp only [bmLoop, idxOf?, if_pos rfl]
        rw [ih (i + 1) _ hnd.2, hnone]
        simp [lookupScore_mapInsert]
      · simp only [bmLoop, idxOf?, if_neg hc]
        rw [ih (i + 1) _ hnd.2]
        cases hidx : idxOf? c rs with
        | none => simp [hidx, lookupScore_mapInsert, hc]
        | some j =>
            simp only [hidx, Option.map_some']
            have : i + 1 + j = i + (j + 1) := by omega
            rw [this]

theorem vecLoop_lookup (w : ℚ) (c : String) :
    ∀ (v : List SearchResult) (i : Nat) (m : ScoreMap),
      (v.map SearchResult.chunk_id).Nodup →
      lookupScore (vecLoop w i v m) c =
        lookupScore m c +
          match idxOf? c v with
          | some j => rrfTerm w (i + j)
          | none => 0 := by
  intro v
  induction v with
  | nil => intro i m _; simp [vecLoop, idxOf?]
  | cons r rs ih =>
      intro i m hnd
      simp only [List.map_cons, List.nodup_cons] at hnd
      by_cases hc : r.chunk_id = c
      · subst hc
        have hnone : idxOf? r.chunk_id rs = none :=
          idxOf?_eq_none_of_not_mem hnd.1
        simp only [vecLoop, idxOf?, if_pos rfl]
        rw [ih (i + 1) _ hnd.2, hnone]
        simp [lookupScore_mapAccum]
      · simp only [vecLoop, idxOf?, if_neg hc]
        rw [ih (i + 1) _ hnd.2]
        cases hidx : idxOf? c rs with
        | none => simp [hidx, lookupScore_mapAccum, hc]
        | some j =>
            simp only [hidx, Option.map_some']
            have harith : i + 1 + j = i + (j + 1) := by omega
            rw [lookupScore_mapAccum, if_neg hc, harith]

/-- Accumulated RRF score of chunk `c` splits into the two lists' contributions. -/
theorem rrfAccum_lookup (b v : List SearchResult) (wb wv : ℚ) (c : String)
    (hb : (b.map SearchResult.chunk_id).Nodup)
    (hv : (v.map SearchResult.chunk_id).Nodup) :
    lookupScore (rrfAccum b v wb wv) c = listContrib wb b c + listContrib wv v c := by
  unfold rrfAccum listContrib
  rw [vecLoop_lookup wv c v 0 _ hv, bmLoop_lookup wb c b 0 [] hb]
  cases hib : idxOf? c b <;> cases hiv : idxOf? c v <;>
    simp [lookupScore, Nat.zero_add]

/-- Sample BM25-style candidate (chunk `x`), rank 1 in its list. -/
def resX : SearchResult :=
  { chunk_id := ("chunkX"), doc_path := ("docX.md"), doc_type := ("test"),
    agent_name := none, section_ := none, chunk_text := ("x text"),
    score := (9/10 : ℚ), rank := 1 }

/-- Sample vector-style candidate (chunk `y`), rank 1 in its list. -/
def resY : SearchResult :=
  { chunk_id := ("chunkY"), doc_path := ("docY.md"), doc_type := ("test"),
    agent_name := none, section_ := none, chunk_text := ("y text"),
    score := (8/10 : ℚ), rank := 1 }

/-- Claim C1: in `reciprocal_rank_fusion`, every candidate at 1-indexed rank
`r` of a source list contributes exactly `weight / (60 + r)` to the
accumulator keyed by its `chunk_id`, and a chunk in both lists receives the
sum of both contributions; with weights (0.5, 0.5) a chunk at rank 1 in one
list scores `0.5/61`, and a chunk at rank 1 in both lists scores `2*0.5/61`
and is ranked first. -/
theorem rrf_accumulates_weighted_reciprocal_ranks :
    (∀ (b v : List SearchResult) (wb wv : ℚ) (c : String),
        (b.map SearchResult.chunk_id).Nodup →
        (v.map SearchResult.chunk_id).Nodup →
        lookupScore (rrfAccum b v wb wv) c = listContrib wb b c + listContrib wv v c) ∧
    (reciprocal_rank_fusion [resX] [resY] 5 (1/2) (1/2)).map SearchResult.score
        = [(1/2) / 61, (1/2) / 61] ∧
    reciprocal_rank_fusion [resX, resY] [resX] 5 (1/2) (1/2) =
      [{ resX with score := 2 * ((1/2) / 61), rank := 1 },
       { resY with score := (1/2) / 62, rank := 2 }] := by
  refine ⟨fun b v wb wv c hb hv => rrfAccum_lookup b v wb wv c hb hv, ?_, ?_⟩
  · simp [reciprocal_rank_fusion, rrfAccum, bmLoop, vecLoop, mapInsert, mapAccum, rrfTerm,
      sortDesc, insertDesc, assignRanks, resX, resY]
    norm_num
  · simp [reciprocal_rank_fusion, rrfAccum, bmLoop, vecLoop, mapInsert, mapAccum, rrfTerm,
      sortDesc, insertDesc, assignRanks, resX, resY]
    norm_num
    simp [assignRanks, resX, resY]

/-- Witness for C1: the accumulation law applied at a concrete input. -/
theorem rrf_accumulates_weighted_reciprocal_ranks_witness :
    lookupScore (rrfAccum [resX] [resY] (1/2) (1/2)) (("chunkX")) =
      listContrib (1/2) [resX] (("chunkX")) + listContrib (1/2) [resY] (("chunkX")) :=
  rrf_accumulates_weighted_reciprocal_ranks.1 [resX] [resY] (1/2) (1/2) (("chunkX"))
    (by simp [resX]) (by simp [resY])

/-- Descending order by score (the sort order of `reciprocal_rank_fusion`). -/
def SortedByScoreDesc (l : List SearchResult) : Prop :=
  l.Pairwise (fun a b => b.score ≤ a.score)

theorem mem_insertDesc {x z : SearchResult} {l : List SearchResult} :
    z ∈ insertDesc x l ↔ z = x ∨ z ∈ l := by
  induction l with
  | nil => simp [insertDesc]
  | cons y ys ih =>
      by_cases h : x.score < y.score <;> simp [insertDesc, h, ih] <;> tauto

theorem sortedDesc_insertDesc {x : SearchResult} {l : List SearchResult}
    (h : SortedByScoreDesc l) : SortedByScoreDesc (insertDesc x l) := by
  induction l with
  | nil => simp [insertDesc, SortedByScoreDesc]
  | cons y ys ih =>
      rw [SortedByScoreDesc, List.pairwise_cons] at h
      by_cases hxy : x.score < y.score
      · simp only [insertDesc, if_pos hxy]
        rw [SortedByScoreDesc, List.pairwise_cons]
        refine ⟨fun z hz => ?_, ih h.2⟩
        rcases mem_insertDesc.1 hz with rfl | hz'
        · exact le_of_lt hxy
        · exact h.1 z hz'
      · simp only [insertDesc, if_neg hxy]
        rw [SortedByScoreDesc, List.pairwise_cons]
        refine ⟨fun z hz => ?_, List.pairwise_cons.mpr h⟩
        rcases List.mem_cons.mp hz with rfl | hz'
        · exact not_lt.mp hxy
        · exact le_trans (h.1 z hz') (not_lt.mp hxy)

theorem sortedDesc_sortDesc (l : List SearchResult) : SortedByScoreDesc (sortDesc l) := by
  induction l with
  | nil => simp [sortDesc, SortedByScoreDesc]
  | cons x xs ih => exact sortedDesc_insertDesc ih

theorem sortedDesc_take {l : List SearchResult} (h : SortedByScoreDesc l) (k : Nat) :
    SortedByScoreDesc (l.take k) :=
  List.Pairwise.sublist (List.take_sublist k l) h

theorem assignRanks_length : ∀ (i : Nat) (l : List SearchResult),
    (assignRanks i l).length = l.length
  | _, [] => rfl
  | i, _ :: rs => by simp [assignRanks, assignRanks_length (i + 1) rs]

theorem assignRanks_rank : ∀ (l : List SearchResult) (i j : Nat)
    (h : j < (assignRanks i l).length), ((assignRanks i l).get ⟨j, h⟩).rank = i + j + 1 := by
  intro l
  induction l with
  | nil => intro i j h; simp [assignRanks] at h
  | cons r rs ih =>
      intro i j h
      cases j with
      | zero => simp [assignRanks]
      | succ j' =>
          have h' : j' < (assignRanks (i + 1) rs).length := by
            simpa [assignRanks] using h
          have := ih (i + 1) j' h'
          simpa [assignRanks, Nat.add_assoc, Nat.add_comm, Nat.add_left_comm] using this

theorem assignRanks_map_norm (m rg : ℚ) : ∀ (i : Nat) (l : List SearchResult),
    (assignRanks i l).map (fun r => { r with score := (r.score - m) / rg }) =
      assignRanks i (l.map (fun r => { r with score := (r.score - m) / rg }))
  | _, [] => rfl
  | i, r :: rs => by
      simp only [assignRanks, List.map_cons, assignRanks_map_norm m rg (i + 1) rs]

theorem assignRanks_takeWhile (t : ℚ) : ∀ (i : Nat) (l : List SearchResult),
    (assignRanks i l).takeWhile (fun r => decide (t ≤ r.score)) =
      assignRanks i (l.takeWhile (fun r => decide (t ≤ r.score)))
  | _, [] => rfl
  | i, r :: rs => by
      by_cases h : t ≤ r.score <;>
        simp [assignRanks, List.takeWhile_cons, h, assignRanks_takeWhile t (i + 1) rs]

theorem assignRanks_scores : ∀ (i : Nat) (l : List SearchResult),
    (assignRanks i l).map SearchResult.score = l.map SearchResult.score
  | _, [] => rfl
  | i, r :: rs => by simp [assignRanks, assignRanks_scores (i + 1) rs]

theorem sortedDesc_iff_scores {l : List SearchResult} :
    SortedByScoreDesc l ↔ (l.map SearchResult.score).Pairwise (fun a b => b ≤ a) := by
  rw [SortedByScoreDesc, List.pairwise_map]

theorem sortedDesc_assignRanks {l : List SearchResult} (h : SortedByScoreDesc l) (i : Nat) :
    SortedByScoreDesc (assignRanks i l) := by
  rw [sortedDesc_iff_scores, assignRanks_scores, ← sortedDesc_iff_scores]
  exact h

theorem filter_eq_takeWhile_sorted (t : ℚ) : ∀ (l : List SearchResult),
    SortedByScoreDesc l →
    l.filter (fun r => decide (t ≤ r.score)) = l.takeWhile (fun r => decide (t ≤ r.score)) := by
  intro l
  induction l with
  | nil => intro _; rfl
  | cons y ys ih =>
      intro h
      rw [SortedByScoreDesc, List.pairwise_cons] at h
      by_cases hy : t ≤ y.score
      · simp [List.filter_cons, List.takeWhile_cons, hy, ih h.2]
      · have hnil : ys.filter (fun r => decide (t ≤ r.score)) = [] := by
          rw [List.filter_eq_nil]
          intro z hz
          simp only [decide_eq_true_eq]
          exact fun hts => hy (le_trans hts (h.1 z hz))
        simp [List.filter_cons, List.takeWhile_cons, hy, hnil]

theorem sortedDesc_map_norm {l : List SearchResult} (h : SortedByScoreDesc l)
    (m : ℚ) {rg : ℚ} (hrg : 0 < rg) :
    SortedByScoreDesc (l.map (fun r => { r with score := (r.score - m) / rg })) := by
  rw [SortedByScoreDesc, List.pairwise_map]
  refine h.imp ?_
  intro a b hab
  simp only
  gcongr

theorem rrf_eq_assignRanks (b v : List SearchResult) (k : Nat) (wb wv : ℚ) :
    reciprocal_rank_fusion b v k wb wv =
      assignRanks 0 ((sortDesc ((rrfAccum b v wb wv).map
        (fun p => { p.2.2 with score := p.2.1 }))).take k) := rfl

theorem rrf_length_le (b v : List SearchResult) (k : Nat) (wb wv : ℚ) :
    (reciprocal_rank_fusion b v k wb wv).length ≤ k := by
  rw [rrf_eq_assignRanks, assignRanks_length, List.length_take]
  exact min_le_left _ _

theorem rrf_sorted (b v : List SearchResult) (k : Nat) (wb wv : ℚ) :
    SortedByScoreDesc (reciprocal_rank_fusion b v k wb wv) := by
  rw [rrf_eq_assignRanks]
  exact sortedDesc_assignRanks (sortedDesc_take (sortedDesc_sortDesc _) k) 0

theorem hybridNormalize_head {fused : List SearchResult} (hr : 0 < scoreRange fused) :
    (hybridNormalize fused).head?.map SearchResult.score = some 1 := by
  cases fused with
  | nil => simp [scoreRange, rrfMax, rrfMin] at hr
  | cons h t =>
      rw [hybridNormalize, if_pos hr, List.head?_map]
      have hmax : rrfMax (h :: t) = h.score := by simp [rrfMax]
      simp only [List.head?_cons, Option.map_some', Option.map_map]
      have : (h.score - rrfMin (h :: t)) / scoreRange (h :: t) = 1 := by
        rw [show h.score - rrfMin (h :: t) = scoreRange (h :: t) by rw [scoreRange, hmax]]
        exact div_self (ne_of_gt hr)
      simpa using this

theorem hybridNormalize_getLast {fused : List SearchResult} (hr : 0 < scoreRange fused) :
    (hybridNormalize fused).getLast?.map SearchResult.score = some 0 := by
  cases hlast : fused.getLast? with
  | none =>
      rw [List.getLast?_eq_none_iff] at hlast
      subst hlast
      simp [scoreRange, rrfMax, rrfMin] at hr
  | some z =>
      have hmin : rrfMin fused = z.score := by rw [rrfMin, hlast]
      rw [hybridNormalize, if_pos hr, List.getLast?_map, hlast]
      simp [hmin]

theorem hybridNormalize_of_range_zero {fused : List SearchResult}
    (hr : scoreRange fused = 0) : hybridNormalize fused = fused := by
  rw [hybridNormalize, if_neg]
  simp [hr]

theorem hybridPost_rank (b v : List SearchResult) (k : Nat) (ms wb wv : ℚ) :
    ∀ (j : Nat) (h : j < (hybridPost (reciprocal_rank_fusion b v k wb wv) ms).length),
      ((hybridPost (reciprocal_rank_fusion b v k wb wv) ms).get ⟨j, h⟩).rank = j + 1 := by
  have key : ∀ (L : List SearchResult), SortedByScoreDesc L → ∀ (t : ℚ),
      ∃ M, (hybridNormalize (assignRanks 0 L)).filter (fun r => decide (t ≤ r.score)) =
        assignRanks 0 M := by
    intro L hL t
    by_cases hr : 0 < scoreRange (assignRanks 0 L)
    · refine ⟨(L.map (fun r =>
        { r with score := (r.score - rrfMin (assignRanks 0 L)) /
            scoreRange (assignRanks 0 L) })).takeWhile (fun r => decide (t ≤ r.score)), ?_⟩
      rw [hybridNormalize, if_pos hr, assignRanks_map_norm,
        filter_eq_takeWhile_sorted t _
          (sortedDesc_assignRanks (sortedDesc_map_norm hL _ hr) 0),
        assignRanks_takeWhile]
    · refine ⟨L.takeWhile (fun r => decide (t ≤ r.score)), ?_⟩
      rw [hybridNormalize, if_neg hr,
        filter_eq_takeWhile_sorted t _ (sortedDesc_assignRanks hL 0),
        assignRanks_takeWhile]
  obtain ⟨M, hM⟩ := key ((sortDesc ((rrfAccum b v wb wv).map
      (fun p => { p.2.2 with score := p.2.1 }))).take k)
    (sortedDesc_take (sortedDesc_sortDesc _) k)
    (adaptiveThreshold (reciprocal_rank_fusion b v k wb wv) ms)
  have hout : hybridPost (reciprocal_rank_fusion b v k wb wv) ms = assignRanks 0 M := by
    rw [hybridPost, rrf_eq_assignRanks]
    exact hM
  have hgen : ∀ (out : List SearchResult), out = assignRanks 0 M →
      ∀ (j : Nat) (h : j < out.length), (out.get ⟨j, h⟩).rank = j + 1 := by
    intro out ho
    subst ho
    intro j h
    simpa using assignRanks_rank M 0 j h
  exact hgen _ hout

/-- Claim C2: after fusion, `search_hybrid` sorts by accumulated RRF score
descending and takes the top `k`; min-max normalization maps the retained
top score to 1 and the bottom to 0 (untouched when the range is 0); the
effective threshold is `min(min_score, 0.2)` when the range is below 0.1,
else `min_score`; entries below it are dropped and survivors carry
contiguous 1-indexed ranks. -/
theorem hybrid_topk_normalize_threshold_ranks (b v : List SearchResult) (k : Nat)
    (ms wb wv : ℚ) :
    (reciprocal_rank_fusion b v k wb wv).length ≤ k ∧
    SortedByScoreDesc (reciprocal_rank_fusion b v k wb wv) ∧
    (0 < scoreRange (reciprocal_rank_fusion b v k wb wv) →
      (hybridNormalize (reciprocal_rank_fusion b v k wb wv)).head?.map SearchResult.score
          = some 1 ∧
      (hybridNormalize (reciprocal_rank_fusion b v k wb wv)).getLast?.map SearchResult.score
          = some 0) ∧
    (scoreRange (reciprocal_rank_fusion b v k wb wv) = 0 →
      hybridNormalize (reciprocal_rank_fusion b v k wb wv) = reciprocal_rank_fusion b v k wb wv) ∧
    (scoreRange (reciprocal_rank_fusion b v k wb wv) < 1 / 10 →
      adaptiveThreshold (reciprocal_rank_fusion b v k wb wv) ms = min ms (1 / 5)) ∧
    (1 / 10 ≤ scoreRange (reciprocal_rank_fusion b v k wb wv) →
      adaptiveThreshold (reciprocal_rank_fusion b v k wb wv) ms = ms) ∧
    (∀ r ∈ hybridPost (reciprocal_rank_fusion b v k wb wv) ms,
      adaptiveThreshold (reciprocal_rank_fusion b v k wb wv) ms ≤ r.score) ∧
    (∀ (j : Nat) (h : j < (hybridPost (reciprocal_rank_fusion b v k wb wv) ms).length),
      ((hybridPost (reciprocal_rank_fusion b v k wb wv) ms).get ⟨j, h⟩).rank = j + 1) := by
  refine ⟨rrf_length_le b v k wb wv, rrf_sorted b v k wb wv,
    fun hr => ⟨hybridNormalize_head hr, hybridNormalize_getLast hr⟩,
    hybridNormalize_of_range_zero,
    fun h => by rw [adaptiveThreshold, if_pos h],
    fun h => by rw [adaptiveThreshold, if_neg (not_lt.mpr h)],
    ?_, hybridPost_rank b v k ms wb wv⟩
  intro r hr
  rw [hybridPost] at hr
  exact of_decide_eq_true (List.mem_filter.mp hr).2

/-- Witness for C2: at a concrete fused pair the top normalized score is 1. -/
theorem hybrid_topk_normalize_threshold_ranks_witness :
    (hybridNormalize (reciprocal_rank_fusion [resX, resY] [] 5 (1/2) (1/2))).head?.map
        SearchResult.score = some 1 :=
  ((hybrid_topk_normalize_threshold_ranks [resX, resY] [] 5 0 (1/2) (1/2)).2.2.1
    (by
      simp [reciprocal_rank_fusion, rrfAccum, bmLoop, vecLoop, mapInsert, mapAccum, rrfTerm,
        sortDesc, insertDesc, assignRanks, scoreRange, rrfMax, rrfMin, resX, resY]
      norm_num
      simp [assignRanks]
      norm_num)).1

/-- A stored chunk row together with its document's namespace (the SQL
filters of both search legs test `documents.namespace` / `documents.agent_name`). -/
structure CorpusRow where
  ns : String
  result : SearchResult
deriving Repr, DecidableEq

/-- SQL `(? IS NULL OR d.namespace = ?)`. -/
def nsOk (flt : Option String) (ns : String) : Bool :=
  match flt with
  | none => true
  | some a => ns == a

/-- SQL `(? IS NULL OR d.agent_name = ?)`. -/
def agentOk (flt : Option String) (agent_name : Option String) : Bool :=
  match flt with
  | none => true
  | some a => agent_name == some a

/-- BM25 leg over a concrete corpus: the SQL WHERE clause of `search_bm25`
(namespace and agent filters) over rows that all match the FTS query. -/
def bm25Of (corpus : List CorpusRow) :
    String → Option String → Option String → Nat → ℚ → List SearchResult :=
  fun _query ns agent k _ms =>
    ((corpus.filter (fun row => nsOk ns row.ns && agentOk agent row.result.agent_name)).map
      CorpusRow.result).take k

/-- Vector leg over a concrete corpus: the SQL WHERE clause of
`search_vector_full_scan` (namespace and agent filters). -/
def vecOf (corpus : List CorpusRow) :
    String → Nat → ℚ → Option String → Option String → List SearchResult :=
  fun _query k _ms ns agent =>
    ((corpus.filter (fun row => nsOk ns row.ns && agentOk agent row.result.agent_name)).map
      CorpusRow.result).take k

/-- A chunk belonging to agent `beta`. -/
def resBeta : SearchResult :=
  { chunk_id := ("chunkB"), doc_path := ("agents/beta/doc.md"), doc_type := ("agent_prompt"),
    agent_name := some ("beta"), section_ := none, chunk_text := ("beta text"),
    score := (9/10 : ℚ), rank := 1 }

/-- One-document corpus owned by agent `beta` in namespace `agents`. -/
def leakCorpus : List CorpusRow := [{ ns := ("agents"), result := resBeta }]

/-- Claim C10: `search_hybrid` passes the agent (entity) filter only to the
vector leg — the BM25 leg is invoked with agent filter `None` (its output is
the only way the BM25 oracle enters the result), so with a corpus whose only
document belongs to agent `beta`, a hybrid query filtered to agent `alpha`
still returns the `beta` chunk through the BM25 leg. -/
theorem hybrid_agent_filter_only_vector_leg :
    (∀ (f f' : String → Option String → Option String → Nat → ℚ → List SearchResult)
        (g : String → Nat → ℚ → Option String → Option String → List SearchResult)
        (q : String) (ns ag : Option String) (k : Nat) (ms wb wv : ℚ),
        f q ns none (k * 4) 0 = f' q ns none (k * 4) 0 →
        search_hybrid f g q ns ag k ms wb wv = search_hybrid f' g q ns ag k ms wb wv) ∧
    (search_hybrid (bm25Of leakCorpus) (vecOf leakCorpus) ("query") none (some ("alpha"))
        5 0 (1/2) (1/2)).map SearchResult.agent_name = [some ("beta")] := by
  constructor
  · intro f f' g q ns ag k ms wb wv h
    rw [search_hybrid, search_hybrid, h]
  · simp [search_hybrid, hybridPost, hybridNormalize, adaptiveThreshold, scoreRange,
      rrfMax, rrfMin, bm25Of, vecOf, leakCorpus, resBeta, nsOk, agentOk,
      reciprocal_rank_fusion, rrfAccum, bmLoop, vecLoop, mapInsert, mapAccum, rrfTerm,
      sortDesc, insertDesc, assignRanks, List.filter]
    norm_num

/-- Witness for C10: the BM25-leg extensionality applied at a concrete input. -/
theorem hybrid_agent_filter_only_vector_leg_witness :
    search_hybrid (bm25Of leakCorpus) (vecOf leakCorpus) ("query") none (some ("alpha"))
        5 0 (1/2) (1/2) =
      search_hybrid (bm25Of leakCorpus) (vecOf leakCorpus) ("query") none (some ("alpha"))
        5 0 (1/2) (1/2) :=
  hybrid_agent_filter_only_vector_leg.1 (bm25Of leakCorpus) (bm25Of leakCorpus)
    (vecOf leakCorpus) ("query") none (some ("alpha")) 5 0 (1/2) (1/2) rfl

/-- Rust `char::is_whitespace` (the Unicode White_Space property; Lean's
`Char.isWhitespace` covers only the ASCII subset). -/
def isRustWhitespace (c : Char) : Bool :=
  let n := c.toNat
  n == 0x20 || (0x9 ≤ n && n ≤ 0xD) || n == 0x85 || n == 0xA0 || n == 0x1680 ||
    (0x2000 ≤ n && n ≤ 0x200A) || n == 0x2028 || n == 0x2029 || n == 0x202F ||
    n == 0x205F || n == 0x3000

/-- Rust `str::trim` over the character list. -/
def trimChars (l : List Char) : List Char :=
  ((l.dropWhile isRustWhitespace).reverse.dropWhile isRustWhitespace).reverse

/-- UTF-8 byte length of a character sequence (Rust `str::len`). -/
def utf8Len (l : List Char) : Nat :=
  (l.map Char.utf8Size).sum

/-- Tokenizer core shared by `split_whitespace` (and, with another predicate,
path-component splitting): splits at separator characters, emitting no empty
tokens. `acc` holds the current token reversed. -/
def splitAux (sep : Char → Bool) : List Char → List Char → List (List Char)
  | [], acc => if acc.isEmpty then [] else [acc.reverse]
  | c :: rest, acc =>
      if sep c then
        if acc.isEmpty then splitAux sep rest []
        else acc.reverse :: splitAux sep rest []
      else splitAux sep rest (c :: acc)

/-- Rust `str::split_whitespace`. -/
def splitWhitespace (l : List Char) : List (List Char) :=
  splitAux isRustWhitespace l []

/-- The characters stripped by `sanitize_fts5_query` (FTS5 operators). -/
def isFts5Special (c : Char) : Bool :=
  c == '?' || c == '*' || c == '(' || c == ')' || c == '{' || c == '}' ||
    c == '-' || c == '\''

/-- The fixed stop-word list of src/search/bm25.rs. -/
def stopWords : List (List Char) :=
  ([ "the", "a", "an", "and", "or", "but", "in", "on", "at", "to", "for", "of", "with",
     "by", "from", "as", "is", "are", "was", "were", "be", "been", "being", "have",
     "has", "had", "do", "does", "did", "will", "would", "should", "could", "what",
     "which", "who", "where", "when", "why", "how", "this", "that", "these", "those"
   ] : List String).map String.toList

/-- Rust `str::to_lowercase`, modelled per character with `Char.toLower`
(exact on ASCII, where all stop words live). -/
def lowerChars (l : List Char) : List Char :=
  l.map Char.toLower

/-- Rust `str::replace('"', "\"\"")`: double every double-quote. -/
def doubleQuotes (l : List Char) : List Char :=
  l.bind (fun c => if c == '"' then ['"', '"'] else [c])

/-- The token filter of `sanitize_fts5_query`:
`!stop_words.contains(lower) && term.len() >= 2` (`len` is the UTF-8 byte
count in Rust). -/
def keepTerm (t : List Char) : Bool :=
  !(stopWords.contains (lowerChars t)) && 2 ≤ utf8Len t

/-- `sanitize_fts5_query` from src/search/bm25.rs: trim, strip FTS5 operator
characters, tokenize on whitespace, drop stop words and tokens shorter than
2 bytes, then emit a single term (quotes doubled), an `OR`-join of several,
or the cleaned original as fallback. -/
def sanitize_fts5_query (query : List Char) : List Char :=
  let trimmed := trimChars query
  let cleaned := trimmed.filter (fun c => !isFts5Special c)
  let terms := (splitWhitespace cleaned).filter keepTerm
  match terms with
  | [] => doubleQuotes cleaned
  | [t] => doubleQuotes t
  | _ => List.intercalate ((" OR ").toList) (terms.map doubleQuotes)

/-- The sanitization pipeline exactly as the spec words it (steps 1-6 of
§4.6), with step 3 dropping tokens shorter than 2 *characters* — the
unit in which the claim states the length test. -/
def sanitizeSpecCharLen (query : List Char) : List Char :=
  let cleaned := (trimChars query).filter (fun c => !isFts5Special c)
  let kept := (splitWhitespace cleaned).filter
    (fun t => !(stopWords.contains (lowerChars t)) && 2 ≤ t.length)
  let escaped := kept.map doubleQuotes
  match escaped with
  | [] => doubleQuotes cleaned
  | [t] => t
  | ts => List.intercalate ((" OR ").toList) ts

/-- The same spec pipeline with step 3 measuring tokens in UTF-8 *bytes*
(the amended reading forced by the counterexample). -/
def sanitizeSpecByteLen (query : List Char) : List Char :=
  let cleaned := (trimChars query).filter (fun c => !isFts5Special c)
  let kept := (splitWhitespace cleaned).filter
    (fun t => !(stopWords.contains (lowerChars t)) && 2 ≤ utf8Len t)
  let escaped := kept.map doubleQuotes
  match escaped with
  | [] => doubleQuotes cleaned
  | [t] => t
  | ts => List.intercalate ((" OR ").toList) ts

/-- Counterexample to C4 as stated: `é` is one character (the claim's
length test would drop it) but two UTF-8 bytes (the code keeps it), so on
`"é hello"` the code emits `"é OR hello"` while the claimed
character-counting pipeline emits `"hello"`. -/
theorem sanitize_counts_bytes_not_chars :
    sanitize_fts5_query (("é hello").toList) = ("é OR hello").toList ∧
    sanitizeSpecCharLen (("é hello").toList) = ("hello").toList := by
  constructor <;> decide

/-- Claim C4 (amended: token length is measured in UTF-8 bytes, not
characters): `sanitize_fts5_query` equals the spec's six-step pipeline —
strip FTS5 operator characters from the trimmed query, tokenize on
whitespace, drop stop words and tokens shorter than 2 bytes, double any
remaining double quotes, emit a single survivor verbatim (quotes doubled),
join several with `OR`, and fall back to the cleaned original. -/
theorem sanitize_matches_spec_pipeline (query : List Char) :
    sanitize_fts5_query query = sanitizeSpecByteLen query := by
  rw [sanitize_fts5_query, sanitizeSpecByteLen]
  have hkeep : keepTerm = fun t => !(stopWords.contains (lowerChars t)) && 2 ≤ utf8Len t := rfl
  rw [hkeep]
  cases hterms : (splitWhitespace ((trimChars query).filter (fun c => !isFts5Special c))).filter
      (fun t => !(stopWords.contains (lowerChars t)) && 2 ≤ utf8Len t) with
  | nil => rfl
  | cons t ts =>
      cases ts with
      | nil => rfl
      | cons u us => rfl

/-- One row of the FTS5 SQL query in `search_bm25` (raw BM25 score as ℚ). -/
structure BmRow where
  chunk_id : String
  chunk_text : String
  section_header : Option String
  doc_path : String
  doc_type : String
  agent_name : Option String
  raw_score : ℚ
deriving Repr, DecidableEq

/-- `search_bm25` from src/search/bm25.rs with the database/FTS5 engine as an
oracle (`engine` receives the sanitized MATCH string and the SQL filter
parameters) and the transcendental sigmoid `normalize_bm25_score` abstracted
as `normalize`.  Structure is faithful: empty-trimmed early return, sanitize,
engine call, per-row normalize + `min_score` filter, sort descending,
1-indexed ranks. -/
def search_bm25
    (engine : String → Option String → Option String → Nat → Except String (List BmRow))
    (normalize : ℚ → ℚ)
    (query : String) (namespace_ agent_filter : Option String) (k : Nat) (min_score : ℚ) :
    Except String (List SearchResult) :=
  if (trimChars query.toList).isEmpty then Except.ok []
  else
    match engine (String.mk (sanitize_fts5_query query.toList)) namespace_ agent_filter k with
    | Except.error e => Except.error e
    | Except.ok rows =>
        let results := rows.filterMap (fun row =>
          let s := normalize row.raw_score
          if s < min_score then none
          else some { chunk_id := row.chunk_id, doc_path := row.doc_path,
                      doc_type := row.doc_type, agent_name := row.agent_name,
                      section_ := row.section_header, chunk_text := row.chunk_text,
                      score := s, rank := 0 })
        Except.ok (assignRanks 0 (sortDesc results))

/-- SQLite FTS5 `MATCH` semantics at the boundary this claim probes: the
engine rejects an empty query string with a syntax error (documented SQLite
behavior; the engine itself is outside src/).  Non-empty queries succeed
with no rows. -/
def fts5EmptyRejecting : String → Option String → Option String → Nat →
    Except String (List BmRow) :=
  fun q _ _ _ =>
    if q.isEmpty then Except.error ("fts5: syntax error") else Except.ok []

/-- Claim C5 evidence: (a) every query whose trimmed form is empty returns
`Ok([])` without consulting the engine, for every engine; (b) the query
`"?"` sanitizes to the empty string, which `search_bm25` forwards to the
FTS5 engine — an engine with SQLite's documented empty-query rejection makes
the call return the engine error, not an empty set. -/
theorem bm25_empty_query_handling :
    (∀ (engine : String → Option String → Option String → Nat → Except String (List BmRow))
        (normalize : ℚ → ℚ) (query : String) (ns ag : Option String) (k : Nat) (ms : ℚ),
        (trimChars query.toList).isEmpty = true →
        search_bm25 engine normalize query ns ag k ms = Except.ok []) ∧
    String.mk (sanitize_fts5_query (("?").toList)) = ("") ∧
    (∀ (normalize : ℚ → ℚ) (ns ag : Option String) (k : Nat) (ms : ℚ),
        search_bm25 fts5EmptyRejecting normalize ("?") ns ag k ms =
          Except.error ("fts5: syntax error")) := by
  refine ⟨fun engine normalize query ns ag k ms h => ?_, by decide, ?_⟩
  · rw [search_bm25, if_pos h]
  · intro normalize ns ag k ms
    rw [search_bm25, if_neg (by decide)]
    have hsan : String.mk (sanitize_fts5_query (("?").toList)) = ("") := by decide
    rw [hsan]
    rfl

/-- Witness for C5: the early return applied at a whitespace-only query. -/
theorem bm25_empty_query_handling_witness :
    search_bm25 fts5EmptyRejecting id ("  ") none none 5 0 = Except.ok [] :=
  bm25_empty_query_handling.1 fts5EmptyRejecting id ("  ") none none 5 0 (by decide)

/-- The error kinds of src/error.rs that path validation can produce. -/
inductive RagError where
  | invalidInput (msg : String)
deriving Repr, DecidableEq

/-- Rust `str::contains("..")`: two adjacent dots anywhere. -/
def containsDotDot : List Char → Bool
  | '.' :: '.' :: _ => true
  | _ :: rest => containsDotDot rest
  | [] => false

/-- `starts_with('/') || starts_with('\\')`. -/
def startsWithSlash (l : List Char) : Bool :=
  match l with
  | [] => false
  | c :: _ => c == '/' || c == '\\'

/-- Path components of a relative path string, as Rust `Path::components`
normalizes them after a join: split at `/`, drop empty pieces and `.`. -/
def relComponents (rel : List Char) : List (List Char) :=
  (splitAux (fun c => c == '/') rel []).filter (fun s => !s.isEmpty && s ≠ ['.'])

/-- `PathValidator::validate_write_path` from src/mcp/roots.rs.  The
canonicalized root is a component list; `join` of a non-absolute relative
path appends its components, and `strip_prefix` is the component-based
root-prefix test. -/
def validate_write_path (canonical_root : List (List Char)) (relative_path : List Char) :
    Except RagError (List (List Char)) :=
  if containsDotDot relative_path then
    Except.error (RagError.invalidInput ("Path traversal not allowed (.. components)"))
  else if startsWithSlash relative_path then
    Except.error (RagError.invalidInput ("Path must be relative to rag_folder"))
  else if (trimChars relative_path).isEmpty then
    Except.error (RagError.invalidInput ("Path must not be empty"))
  else
    let full_path := canonical_root ++ relComponents relative_path
    if canonical_root.isPrefixOf full_path then Except.ok full_path
    else Except.error (RagError.invalidInput ("Path outside allowed directory"))

/-- A `..` component of a relative path: `..` delimited by the string ends
or `/` separators. -/
def HasDotDotComponent (rel : List Char) : Prop :=
  ∃ pre post, rel = pre ++ ('.' :: '.' :: post) ∧
    (pre = [] ∨ ∃ pre2, pre = pre2 ++ ['/']) ∧
    (post = [] ∨ ∃ post2, post = '/' :: post2)

theorem containsDotDot_append (a b : List Char) :
    containsDotDot (a ++ '.' :: '.' :: b) = true := by
  induction a with
  | nil => rfl
  | cons c rest ih =>
      rw [List.cons_append, containsDotDot.eq_def]
      cases hcr : rest ++ '.' :: '.' :: b with
      | nil => cases rest <;> simp at hcr
      | cons d tail =>
          by_cases hc : c = '.' <;> by_cases hd : d = '.' <;>
            subst_vars <;> simp_all [containsDotDot]

theorem isPrefixOf_self_append (l t : List (List Char)) : l.isPrefixOf (l ++ t) = true := by
  induction l with
  | nil => simp [List.isPrefixOf]
  | cons x xs ih => simp [List.isPrefixOf, ih]

/-- Claim C3: `validate_write_path` rejects (as InvalidInput) every relative
path that is empty, has a `..` component, or starts with `/` or `\`; and
every accepted path is the canonical root extended with the relative path's
components — it still lies under the root (the `strip_prefix` test passes). -/
theorem validate_write_path_rejects_and_confines (root : List (List Char))
    (rel : List Char) :
    ((rel = [] ∨ HasDotDotComponent rel ∨ startsWithSlash rel = true) →
      ∃ msg, validate_write_path root rel = Except.error (RagError.invalidInput msg)) ∧
    (∀ p, validate_write_path root rel = Except.ok p →
      ∃ rest, p = root ++ rest ∧ root.isPrefixOf p = true) := by
  constructor
  · rintro (rfl | ⟨pre, post, rfl, -, -⟩ | hs)
    · exact ⟨("Path must not be empty"), rfl⟩
    · refine ⟨("Path traversal not allowed (.. components)"), ?_⟩
      rw [validate_write_path, if_pos]
      exact containsDotDot_append pre post
    · by_cases hdd : containsDotDot rel = true
      · exact ⟨("Path traversal not allowed (.. components)"), by
          rw [validate_write_path, if_pos hdd]⟩
      · refine ⟨("Path must be relative to rag_folder"), ?_⟩
        rw [validate_write_path, if_neg (by simp [hdd]), if_pos hs]
  · intro p hp
    by_cases hdd : containsDotDot rel = true
    · rw [validate_write_path, if_pos hdd] at hp
      exact absurd hp (by simp)
    · by_cases hs : startsWithSlash rel = true
      · rw [validate_write_path, if_neg (by simp [hdd]), if_pos hs] at hp
        exact absurd hp (by simp)
      · by_cases he : (trimChars rel).isEmpty = true
        · rw [validate_write_path, if_neg (by simp [hdd]), if_neg (by simp [hs]),
            if_pos he] at hp
          exact absurd hp (by simp)
        · rw [validate_write_path, if_neg (by simp [hdd]), if_neg (by simp [hs]),
            if_neg (by simp [he]), if_pos (isPrefixOf_self_append root (relComponents rel))]
            at hp
          refine ⟨relComponents rel, ?_, ?_⟩
          · exact (Except.ok.injEq _ _ ▸ hp).symm
          · rw [← Except.ok.inj hp]
            exact isPrefixOf_self_append root (relComponents rel)

/-- Witness for C3: `".."` is rejected; `"a/b"` is accepted under the root. -/
theorem validate_write_path_rejects_and_confines_witness :
    (∃ msg, validate_write_path [("root").toList] (("..").toList) =
        Except.error (RagError.invalidInput msg)) ∧
    (∃ rest, [("root").toList] ++ relComponents (("a/b").toList) =
        [("root").toList] ++ rest ∧
      List.isPrefixOf [("root").toList] ([("root").toList] ++ relComponents (("a/b").toList))
        = true) :=
  ⟨(validate_write_path_rejects_and_confines [("root").toList] (("..").toList)).1
      (Or.inr (Or.inl ⟨[], [], rfl, Or.inl rfl, Or.inl rfl⟩)),
   (validate_write_path_rejects_and_confines [("root").toList] (("a/b").toList)).2
      ([("root").toList] ++ relComponents (("a/b").toList)) rfl⟩


/-- `Relation` from src/graph/mod.rs.  The random `relation_id` (UUIDv4) is
not modelled; no claim mentions it. -/
structure Relation where
  source_entity : String
  relation_type : String
  target_entity : String
  metadata_json : Option String
deriving Repr, DecidableEq

/-- Regex `\w`: word characters.  ASCII-exact model (`[0-9A-Za-z_]`); all
inputs in the claims and the crate's tests are ASCII.  The hyphen is NOT a
word character — the crux of claim C6. -/
def isWordChar (c : Char) : Bool :=
  c.isAlphanum || c == '_'

/-- Try to match `(\w+)\s*→\s*(\w+)` anchored at the start of `s`.  The
three character classes (`\w`, `\s`, the arrow) are disjoint, so the greedy
maximal-munch match is exact (no backtracking can succeed where it fails).
Returns (capture 1, capture 2, rest after the match). -/
def matchArrowAt (s : List Char) : Option (List Char × List Char × List Char) :=
  let w1 := s.takeWhile isWordChar
  if w1.isEmpty then none
  else
    match (s.dropWhile isWordChar).dropWhile isRustWhitespace with
    | c :: rest3 =>
        if c == '→' then
          let rest4 := rest3.dropWhile isRustWhitespace
          let w2 := rest4.takeWhile isWordChar
          if w2.isEmpty then none
          else some (w1, w2, rest4.dropWhile isWordChar)
        else none
    | [] => none

/-- Leftmost match: try each start position in order (the engine's scan). -/
def findArrowMatch : List Char → Option (List Char × List Char × List Char)
  | [] => none
  | c :: rest =>
      match matchArrowAt (c :: rest) with
      | some m => some m
      | none => findArrowMatch rest

/-- One emitted relation of `extract_routing_relations`. -/
def mkRoutingRelation (agent_name : String) (fromW toW : List Char) : Relation :=
  { source_entity := ("agent:") ++ String.mk (lowerChars fromW),
    relation_type := ("routes_to"),
    target_entity := ("agent:") ++ String.mk (lowerChars toW),
    metadata_json := some ((("\x7b\"extracted_from\":\"agent:") ++ agent_name) ++ ("\"\x7d")) }

/-- The `captures_iter` loop: successive non-overlapping leftmost matches.
Fuel bounds the iteration; each match consumes at least one character, so
`content.length` iterations always suffice. -/
def extractGo (agent_name : String) : Nat → List Char → List Relation
  | 0, _ => []
  | fuel + 1, s =>
      match findArrowMatch s with
      | none => []
      | some (w1, w2, rest) =>
          mkRoutingRelation agent_name w1 w2 :: extractGo agent_name fuel rest

/-- `extract_routing_relations` from src/graph/extraction.rs. -/
def extract_routing_relations (agent_name : String) (content : List Char) : List Relation :=
  extractGo agent_name content.length content

/-- Claim C6 evidence (code bug): on `"Agent-A → Agent-B"` the regex
`(\w+)\s*→\s*(\w+)` cannot cross the hyphen, so the leftmost match captures
`("A", "Agent")` and the code emits `agent:a → agent:agent` — not the
`agent:agent-a → agent:agent-b` relation that the claim and the code's own
unit tests (`test_extract_routing_basic`) expect. -/
theorem extract_routing_hyphen_bug :
    extract_routing_relations ("x") (("Agent-A → Agent-B").toList) =
      [{ source_entity := ("agent:a"), relation_type := ("routes_to"),
         target_entity := ("agent:agent"),
         metadata_json := some ("\x7b\"extracted_from\":\"agent:x\"\x7d") }] ∧
    (extract_routing_relations ("x") (("Agent-A → Agent-B").toList)).map
        Relation.target_entity ≠ [("agent:agent-b")] := by
  constructor <;> decide


/-- SQL fetch of one BFS expansion (`WHERE source_entity = ?` with optional
`relation_type IN (...)`), over the edge table as a list. -/
def relationsFrom (edges : List Relation) (types : Option (List String))
    (entity : String) : List Relation :=
  edges.filter (fun r =>
    r.source_entity == entity &&
      match types with
      | none => true
      | some ts => ts.contains r.relation_type)

/-- The inner `for rel in relations` loop of `traverse_graph`: emit the
relation, enqueue and mark its target, only when the target is unvisited. -/
def processRels : List Relation → List (String × Nat) → List String → List Relation →
    Nat → List (String × Nat) × List String × List Relation
  | [], q, vis, res, _ => (q, vis, res)
  | rel :: rest, q, vis, res, depth =>
      if rel.target_entity ∈ vis then processRels rest q vis res depth
      else
        processRels rest (q ++ [(rel.target_entity, depth + 1)])
          (rel.target_entity :: vis) (res ++ [rel]) depth

/-- The BFS loop of `traverse_graph`, fuel-bounded.  Every enqueue adds a
fresh entry to `visited`, so pops are bounded and `edges.length + 2` fuel
always suffices; the claim theorems are stated so that fuel sufficiency is
never assumed. -/
def traverseGo (edges : List Relation) (types : Option (List String)) (maxDepth : Nat) :
    Nat → List (String × Nat) → List String → List Relation → Option (List Relation)
  | 0, _, _, _ => none
  | fuel + 1, queue, visited, result =>
      match queue with
      | [] => some result
      | (entity, depth) :: queueRest =>
          if maxDepth ≤ depth then
            traverseGo edges types maxDepth fuel queueRest visited result
          else
            match processRels (relationsFrom edges types entity) queueRest visited result depth with
            | (queue2, visited2, result2) =>
                traverseGo edges types maxDepth fuel queue2 visited2 result2

/-- `traverse_graph` from src/graph/traversal.rs (the database is the edge
list; `relation_types` and `max_depth` as in the source). -/
def traverse_graph (edges : List Relation) (start_entity : String)
    (relation_types : Option (List String)) (max_depth : Nat) : Option (List Relation) :=
  traverseGo edges relation_types max_depth (edges.length + 2)
    [(start_entity, 0)] [start_entity] []

theorem processRels_inv (s : String) :
    ∀ (rels : List Relation) (q : List (String × Nat)) (vis : List String)
      (res : List Relation) (d : Nat),
      (res.map Relation.target_entity).Nodup →
      (∀ r ∈ res, r.target_entity ∈ vis) →
      s ∈ vis →
      (∀ r ∈ res, r.target_entity ≠ s) →
      ((processRels rels q vis res d).2.2.map Relation.target_entity).Nodup ∧
        (∀ r ∈ (processRels rels q vis res d).2.2,
          r.target_entity ∈ (processRels rels q vis res d).2.1) ∧
        s ∈ (processRels rels q vis res d).2.1 ∧
        (∀ r ∈ (processRels rels q vis res d).2.2, r.target_entity ≠ s) := by
  intro rels
  induction rels with
  | nil =>
      intro q vis res d h1 h2 h3 h4
      exact ⟨h1, h2, h3, h4⟩
  | cons rel rest ih =>
      intro q vis res d h1 h2 h3 h4
      by_cases hv : rel.target_entity ∈ vis
      · simpa [processRels, hv] using ih q vis res d h1 h2 h3 h4
      · have h1' : ((res ++ [rel]).map Relation.target_entity).Nodup := by
          rw [List.map_append, List.nodup_append]
          refine ⟨h1, List.nodup_singleton _, ?_⟩
          intro t ht ht2
          simp only [List.map_cons, List.map_nil, List.mem_singleton] at ht2
          subst ht2
          obtain ⟨r, hr, hrt⟩ := List.mem_map.mp ht
          exact hv (hrt ▸ h2 r hr)
        have h2' : ∀ r ∈ res ++ [rel], r.target_entity ∈ rel.target_entity :: vis := by
          intro r hr
          rcases List.mem_append.mp hr with hr1 | hr2
          · exact List.mem_cons_of_mem _ (h2 r hr1)
          · simp only [List.mem_singleton] at hr2
            subst hr2
            exact List.mem_cons_self _ _
        have h3' : s ∈ rel.target_entity :: vis := List.mem_cons_of_mem _ h3
        have h4' : ∀ r ∈ res ++ [rel], r.target_entity ≠ s := by
          intro r hr
          rcases List.mem_append.mp hr with hr1 | hr2
          · exact h4 r hr1
          · simp only [List.mem_singleton] at hr2
            subst hr2
            exact fun he => hv (he ▸ h3)
        simpa [processRels, hv] using
          ih (q ++ [(rel.target_entity, d + 1)]) (rel.target_entity :: vis)
            (res ++ [rel]) d h1' h2' h3' h4'

theorem traverseGo_inv (edges : List Relation) (types : Option (List String))
    (maxDepth : Nat) (s : String) :
    ∀ (fuel : Nat) (queue : List (String × Nat)) (vis : List String)
      (res : List Relation) (out : List Relation),
      (res.map Relation.target_entity).Nodup →
      (∀ r ∈ res, r.target_entity ∈ vis) →
      s ∈ vis →
      (∀ r ∈ res, r.target_entity ≠ s) →
      traverseGo edges types maxDepth fuel queue vis res = some out →
      (out.map Relation.target_entity).Nodup ∧ (∀ r ∈ out, r.target_entity ≠ s) := by
  intro fuel
  induction fuel with
  | zero => intro queue vis res out _ _ _ _ h; simp [traverseGo] at h
  | succ fuel ih =>
      intro queue vis res out h1 h2 h3 h4 h
      match queue with
      | [] =>
          simp only [traverseGo, Option.some.injEq] at h
          subst h
          exact ⟨h1, h4⟩
      | (entity, depth) :: queueRest =>
          by_cases hd : maxDepth ≤ depth
          · rw [traverseGo, if_pos hd] at h
            exact ih queueRest vis res out h1 h2 h3 h4 h
          · rw [traverseGo, if_neg hd] at h
            obtain ⟨g1, g2, g3, g4⟩ :=
              processRels_inv s (relationsFrom edges types entity) queueRest vis res depth
                h1 h2 h3 h4
            exact ih _ _ _ out g1 g2 g3 g4 h

/-- The three-edge cycle of the crate's `test_traverse_cycle_no_infinite_loop`
scenario restricted to the claim's graph `a → b → c` plus `c → a`. -/
def cycEdges : List Relation :=
  [ { source_entity := ("agent:a"), relation_type := ("routes_to"),
      target_entity := ("agent:b"), metadata_json := none },
    { source_entity := ("agent:b"), relation_type := ("routes_to"),
      target_entity := ("agent:c"), metadata_json := none },
    { source_entity := ("agent:c"), relation_type := ("routes_to"),
      target_entity := ("agent:a"), metadata_json := none } ]

/-- Claim C7: `traverse_graph` is a visited-set BFS — with `max_depth = 0`
the result is empty; whatever it returns has pairwise-distinct relation
targets none of which is the start entity (each entity is discovered, hence
expanded, at most once and a relation is emitted only for unvisited
targets); and on the cycle `a → b → c → a` from `a` with `max_depth = 5` it
returns exactly the two edges `a→b, b→c` (≤ 3 edges, each entity once). -/
theorem traverse_graph_bfs_visited (edges : List Relation) (start : String)
    (types : Option (List String)) (d : Nat) :
    traverse_graph edges start types 0 = some [] ∧
    (∀ out, traverse_graph edges start types d = some out →
      (out.map Relation.target_entity).Nodup ∧ ∀ r ∈ out, r.target_entity ≠ start) ∧
    traverse_graph cycEdges ("agent:a") none 5 =
      some [cycEdges.get ⟨0, by decide⟩, cycEdges.get ⟨1, by decide⟩] := by
  refine ⟨rfl, ?_, by decide⟩
  intro out h
  exact traverseGo_inv edges types d start (edges.length + 2) [(start, 0)] [start] [] out
    (by simp) (by simp) (List.mem_singleton.mpr rfl) (by simp) h

/-- Witness for C7: the Nodup/no-start-target consequence at the cycle run. -/
theorem traverse_graph_bfs_visited_witness :
    ((([cycEdges.get ⟨0, by decide⟩, cycEdges.get ⟨1, by decide⟩] : List Relation).map
        Relation.target_entity).Nodup ∧
      ∀ r ∈ ([cycEdges.get ⟨0, by decide⟩, cycEdges.get ⟨1, by decide⟩] : List Relation),
        r.target_entity ≠ ("agent:a")) :=
  (traverse_graph_bfs_visited cycEdges ("agent:a") none 5).2.1
    [cycEdges.get ⟨0, by decide⟩, cycEdges.get ⟨1, by decide⟩]
    (traverse_graph_bfs_visited cycEdges ("agent:a") none 5).2.2



/-- `f32::to_le_bytes` on the 32-bit pattern `w` (a float is identified with
its IEEE-754 bit pattern ­— `to_le_bytes`/`from_le_bytes` are exact bit-level
inverses, no rounding is involved). -/
def toLeBytes (w : Nat) : List Nat :=
  [w % 256, w / 256 % 256, w / 65536 % 256, w / 16777216 % 256]

/-- `f32::from_le_bytes`. -/
def fromLeBytes (b0 b1 b2 b3 : Nat) : Nat :=
  b0 + 256 * b1 + 65536 * b2 + 16777216 * b3

/-- The encoder of `store_embedding` (src/embeddings/storage.rs):
`embedding.iter().flat_map(|f| f.to_le_bytes()).collect()`. -/
def encodeEmbedding (v : List Nat) : List Nat :=
  v.bind toLeBytes

/-- `blob.chunks(4)` + `from_le_bytes` once the length is a multiple of 4
(every chunk is then exactly 4 bytes and `try_into` cannot fail). -/
def decodeChunks : List Nat → List Nat
  | b0 :: b1 :: b2 :: b3 :: rest => fromLeBytes b0 b1 b2 b3 :: decodeChunks rest
  | _ => []

/-- `parse_embedding` from src/search/vector.rs. -/
def parse_embedding (blob : List Nat) : Option (List Nat) :=
  if blob.length % 4 ≠ 0 then none
  else some (decodeChunks blob)

theorem fromLeBytes_toLeBytes {w : Nat} (h : w < 4294967296) :
    decodeChunks (toLeBytes w) = [w] := by
  simp only [toLeBytes, decodeChunks, fromLeBytes]
  congr 1
  omega

theorem encodeEmbedding_length (v : List Nat) :
    (encodeEmbedding v).length = 4 * v.length := by
  induction v with
  | nil => rfl
  | cons w ws ih => simp [encodeEmbedding, toLeBytes, List.length_append] at ih ⊢; omega

/-- Claim C8: decoding the little-endian 4-byte encoding returns the original
vector exactly (hence within any tolerance, in particular 1e-6, for a
1536-float vector), and a blob whose length is not a multiple of 4 decodes
to `none` rather than a vector or an error. -/
theorem embedding_roundtrip_and_length_guard :
    (∀ (v : List Nat), (∀ w ∈ v, w < 4294967296) →
      parse_embedding (encodeEmbedding v) = some v) ∧
    (∀ (blob : List Nat), blob.length % 4 ≠ 0 → parse_embedding blob = none) := by
  constructor
  · intro v hv
    rw [parse_embedding, if_neg]
    · congr 1
      induction v with
      | nil => rfl
      | cons w ws ih =>
          have hw : w < 4294967296 := hv w (List.mem_cons_self w ws)
          have hrest : ∀ u ∈ ws, u < 4294967296 := fun u hu => hv u (List.mem_cons_of_mem w hu)
          have : encodeEmbedding (w :: ws) = toLeBytes w ++ encodeEmbedding ws := rfl
          rw [this, toLeBytes]
          simp only [List.cons_append, List.nil_append, decodeChunks]
          rw [List.cons_eq_cons]
          constructor
          · have := fromLeBytes_toLeBytes hw
            simpa [toLeBytes, decodeChunks] using this
          · exact ih hrest
    · simp [encodeEmbedding_length]
  · intro blob h
    rw [parse_embedding, if_pos h]

/-- Witness for C8: the round trip at a 1536-float vector, and a 5-byte blob
decoding to `none`. -/
theorem embedding_roundtrip_and_length_guard_witness :
    parse_embedding (encodeEmbedding (List.replicate 1536 1078530011)) =
        some (List.replicate 1536 1078530011) ∧
      parse_embedding [0, 1, 2, 3, 4] = none :=
  ⟨embedding_roundtrip_and_length_guard.1 (List.replicate 1536 1078530011)
      (fun w hw => by rw [List.eq_of_mem_replicate hw]; norm_num),
   embedding_roundtrip_and_length_guard.2 [0, 1, 2, 3, 4] (by decide)⟩



/-- Rust `str::is_char_boundary` over the character list: `i` is a byte
position landing exactly between encoded characters (0 and the total length
included, positions beyond the end excluded). -/
def isCharBoundary : List Char → Nat → Bool
  | _, 0 => true
  | [], _ + 1 => false
  | c :: rest, i + 1 =>
      if c.utf8Size ≤ i + 1 then isCharBoundary rest (i + 1 - c.utf8Size) else false

/-- The `for i in (0..byte_pos).rev()` scan of `find_char_boundary`: the
largest boundary strictly below the argument (0 as fallback). -/
def findPrevBoundary (t : List Char) : Nat → Nat
  | 0 => 0
  | i + 1 => if isCharBoundary t i then i else findPrevBoundary t i

/-- The `find_char_boundary` closure of `chunk_text` (src/ingest/chunker.rs). -/
def find_char_boundary (t : List Char) (i : Nat) : Nat :=
  if utf8Len t ≤ i then utf8Len t
  else if isCharBoundary t i then i
  else findPrevBoundary t i

/-- Drop exactly `n` leading bytes; `none` when `n` is not a boundary. -/
def dropBytes : List Char → Nat → Option (List Char)
  | t, 0 => some t
  | [], _ + 1 => none
  | c :: rest, i + 1 =>
      if c.utf8Size ≤ i + 1 then dropBytes rest (i + 1 - c.utf8Size) else none

/-- Take exactly `n` leading bytes; `none` when `n` is not a boundary. -/
def takeBytes : List Char → Nat → Option (List Char)
  | _, 0 => some []
  | [], _ + 1 => none
  | c :: rest, i + 1 =>
      if c.utf8Size ≤ i + 1 then (takeBytes rest (i + 1 - c.utf8Size)).map (c :: ·) else none

/-- Rust `str::get(a..b)`: defined only for `a ≤ b` on character boundaries. -/
def sliceBytes (t : List Char) (a b : Nat) : Option (List Char) :=
  if a ≤ b then (dropBytes t a).bind (fun rest => takeBytes rest (b - a)) else none

/-- The break characters of the chunker's word-boundary search:
whitespace or sentence-terminating punctuation. -/
def isBreakChar (c : Char) : Bool :=
  isRustWhitespace c || c == '.' || c == '!' || c == '?'

/-- `search_text.char_indices().rev().find(is_break).map(offset)`: the byte
offset of the last break character, tracked left-to-right. -/
def lastBreakOffsetAux : Nat → Option Nat → List Char → Option Nat
  | _, acc, [] => acc
  | pos, acc, c :: rest =>
      lastBreakOffsetAux (pos + c.utf8Size) (if isBreakChar c then some pos else acc) rest

/-- Byte offset of the last break character of a slice, if any. -/
def lastBreakOffset (s : List Char) : Option Nat :=
  lastBreakOffsetAux 0 none s

/-- `while next_char_start < len && !is_char_boundary(next_char_start)
{ next_char_start += 1 }`. -/
def advanceToBoundary (t : List Char) (i : Nat) : Nat :=
  if h : i < utf8Len t ∧ isCharBoundary t i = false then advanceToBoundary t (i + 1)
  else i
termination_by utf8Len t - i
decreasing_by omega

/-- One-loop-iteration-per-fuel-unit model of the `while start_byte <
text.len()` loop of `chunk_text`; `none` means the fuel ran out — in
particular, `none` for every fuel exhibits a non-terminating run. -/
def chunkTextGo (t : List Char) (charSize charOverlap : Nat) :
    Nat → Nat → List (List Char) → Option (Except String (List (List Char)))
  | 0, _, _ => none
  | fuel + 1, start, chunks =>
      if utf8Len t ≤ start then some (Except.ok chunks)
      else
        let start1 := find_char_boundary t start
        let end1 := min (start1 + charSize) (utf8Len t)
        let endB := find_char_boundary t end1
        let chunkEnd :=
          if endB < utf8Len t then
            let searchStart := find_char_boundary t (endB - charSize / 5)
            match sliceBytes t searchStart endB with
            | some searchText =>
                match lastBreakOffset searchText with
                | some off =>
                    find_char_boundary t (advanceToBoundary t (searchStart + off + 1))
                | none => endB
            | none => endB
          else endB
        match sliceBytes t start1 chunkEnd with
        | none => some (Except.error ("Failed to slice text at byte boundaries"))
        | some cs =>
            let chunks2 := chunks ++ [trimChars cs]
            if utf8Len t ≤ chunkEnd then some (Except.ok chunks2)
            else
              let newStart := find_char_boundary t (chunkEnd - charOverlap)
              chunkTextGo t charSize charOverlap fuel
                (if chunkEnd ≤ newStart then chunkEnd else newStart) chunks2

/-- `chunk_text` from src/ingest/chunker.rs (`char_size = size_tokens * 4`,
`char_overlap = overlap_tokens * 4`), with the loop fuel made explicit. -/
def chunk_text (t : List Char) (size_tokens overlap_tokens : Nat) (fuel : Nat) :
    Option (Except String (List (List Char))) :=
  if (trimChars t).isEmpty then some (Except.ok [])
  else chunkTextGo t (size_tokens * 4) (overlap_tokens * 4) fuel 0 []

/-- On twelve `a`s with `size_tokens = 1`, `overlap_tokens = 2`, one loop
iteration maps `start = 0` back to `start = 0` (the guard compares the
overlap-adjusted start with `chunk_end`, not with the current start). -/
theorem chunkTextGo_stuck (fuel : Nat) (acc : List (List Char)) :
    chunkTextGo (("aaaaaaaaaaaa").toList) 4 8 (fuel + 1) 0 acc =
      chunkTextGo (("aaaaaaaaaaaa").toList) 4 8 fuel 0 (acc ++ [("aaaa").toList]) := rfl

/-- Claim C9 evidence (code bug): `chunk_text` does NOT terminate on every
configuration — with `size_tokens = 1`, `overlap_tokens = 2` on a 12-byte
ASCII input the scan position never advances, so no amount of fuel
completes the loop.  (The infinite-loop guard only fires when the
overlap-adjusted start reaches `chunk_end`; with `char_overlap > 0` it
resets the start *behind* the current chunk instead.) -/
theorem chunk_text_nonterminating_on_large_overlap :
    ∀ fuel : Nat, chunk_text (("aaaaaaaaaaaa").toList) 1 2 fuel = none := by
  have key : ∀ (fuel : Nat) (acc : List (List Char)),
      chunkTextGo (("aaaaaaaaaaaa").toList) 4 8 fuel 0 acc = none := by
    intro fuel
    induction fuel with
    | zero => intro acc; rfl
    | succ n ih =>
        intro acc
        rw [chunkTextGo_stuck n acc]
        exact ih (acc ++ [("aaaa").toList])
  intro fuel
  rw [chunk_text, if_neg (by decide)]
  exact key fuel []


end RagMcp
